import Mathlib

/-!
Verification development for the MEW_gcode_render core: shallow embedding of
the G-code comment-tag parser (`gcode_reader.py`), the stateful geometry
interpreter (`geometry_parser.py`), the kinematics parser branches and the
trajectory resampler (`gcode_segment.py`), and the arc rasterizer
(`geometry_parser.Arc.compute_points`), together with theorems about them.

Numeric conventions: the Python code computes with IEEE doubles; the embedding
uses exact rationals `ℚ` for all interpreter state and the resampler (the
control flow only compares and does field arithmetic), and real numbers `ℝ`
for the trigonometric arc rasterizer.  The Euclidean norm (floating `sqrt` in
the source) is passed as an explicit function parameter where it occurs.
-/

namespace MGR

/-- A 3-D point with rational coordinates (Python `list[float]` of length 3). -/
structure Pt3 where
  x : ℚ
  y : ℚ
  z : ℚ
deriving DecidableEq, Repr

def Pt3.origin : Pt3 := ⟨0, 0, 0⟩

/-- Pointwise subtraction of points (numpy `a - b`). -/
def psub (a b : Pt3) : Pt3 := ⟨a.x - b.x, a.y - b.y, a.z - b.z⟩

/-- Pointwise addition of points (numpy `a + b`). -/
def padd (a b : Pt3) : Pt3 := ⟨a.x + b.x, a.y + b.y, a.z + b.z⟩

/-- Scalar multiplication of a point (numpy `q * a`). -/
def smul (q : ℚ) (a : Pt3) : Pt3 := ⟨q * a.x, q * a.y, q * a.z⟩

/-- A parsed comment-tag value: Python stores either a number (`int`/`float`,
both value-preserving images of the parsed float, merged into `ℚ` here) or the
raw string. -/
inductive TagValue where
  | num (q : ℚ)
  | str (s : List Char)
deriving DecidableEq, Repr

/-- The ASCII uppercase-to-lowercase table. -/
def upperLower : List (Char × Char) :=
  [('A', 'a'), ('B', 'b'), ('C', 'c'), ('D', 'd'), ('E', 'e'), ('F', 'f'),
   ('G', 'g'), ('H', 'h'), ('I', 'i'), ('J', 'j'), ('K', 'k'), ('L', 'l'),
   ('M', 'm'), ('N', 'n'), ('O', 'o'), ('P', 'p'), ('Q', 'q'), ('R', 'r'),
   ('S', 's'), ('T', 't'), ('U', 'u'), ('V', 'v'), ('W', 'w'), ('X', 'x'),
   ('Y', 'y'), ('Z', 'z')]

/-- First-match table lookup, identity when the character is not a key. -/
def lowerLookup : List (Char × Char) → Char → Char
  | [], c => c
  | (u, l) :: rest, c => if c = u then l else lowerLookup rest c

/-- ASCII lower-casing of one character, the model of Python `str.lower()`
applied character-wise (the source only feeds it ASCII G-code text). -/
def lowerChar (c : Char) : Char := lowerLookup upperLower c

/-- Whitespace test used by the model of Python `str.strip()` (the common ASCII
whitespace characters that occur in G-code text). -/
def isSp (c : Char) : Bool := c == ' ' || c == '\t' || c == '\n' || c == '\r'

/-- Model of Python `str.strip()`: drop leading and trailing whitespace. -/
def trimCL (l : List Char) : List Char :=
  ((l.dropWhile isSp).reverse.dropWhile isSp).reverse

/-- Model of Python `str.split(sep)` for a one-character separator: always
returns at least one (possibly empty) piece and drops the separators. -/
def splitOnChar (sep : Char) : List Char → List (List Char)
  | [] => [[]]
  | c :: rest =>
    match splitOnChar sep rest with
    | [] => [[]]
    | h :: t => if c = sep then [] :: h :: t else (c :: h) :: t

/-- Digit test for the numeric literal parser. -/
def isDigitCh (c : Char) : Bool := '0' ≤ c && c ≤ '9'

def allDigits (l : List Char) : Bool := l.all isDigitCh

def digitsToNat (l : List Char) : ℕ :=
  l.foldl (fun a c => 10 * a + (c.toNat - 48)) 0

/-- Unsigned mantissa of a Python float literal: `digits`, `digits.digits`,
`digits.` or `.digits` (at least one digit overall). -/
def parseUnsigned (l : List Char) : Option ℚ :=
  match splitOnChar '.' l with
  | [a] => if a ≠ [] ∧ allDigits a then some (digitsToNat a) else none
  | [a, b] =>
    if (a ≠ [] ∨ b ≠ []) ∧ allDigits a ∧ allDigits b then
      some ((digitsToNat a : ℚ) + (digitsToNat b : ℚ) / (10 ^ b.length))
    else none
  | _ => none

def parseSigned (l : List Char) : Option ℚ :=
  match l with
  | '+' :: r => parseUnsigned r
  | '-' :: r => (parseUnsigned r).map Neg.neg
  | _ => parseUnsigned l

/-- Signed decimal integer (the exponent part of a float literal). -/
def parseExpInt (l : List Char) : Option ℤ :=
  match l with
  | '+' :: r => if r ≠ [] ∧ allDigits r then some ((digitsToNat r : ℤ)) else none
  | '-' :: r => if r ≠ [] ∧ allDigits r then some (-(digitsToNat r : ℤ)) else none
  | _ => if l ≠ [] ∧ allDigits l then some ((digitsToNat l : ℤ)) else none

/-- Model of Python `float(s)` on an already-stripped string, returning `none`
where Python raises `ValueError`.  Covers the ordinary literal grammar
`[sign] mantissa [e|E exponent]`; the exotic accepted forms (`inf`, `nan`,
digit-group underscores) are not modelled — no claim touches them. -/
def pyFloat (l : List Char) : Option ℚ :=
  let m := l.span (fun c => !(c == 'e' || c == 'E'))
  match m.2 with
  | [] => parseSigned m.1
  | _ :: expPart =>
    match parseSigned m.1, parseExpInt expPart with
    | some q, some e => some (q * (10 : ℚ) ^ e)
    | _, _ => none

/-- Python `dict` insertion `d[k] = v` on an insertion-ordered association
list: replace the value in place if the key exists, else append. -/
def dictInsert {α β : Type} [DecidableEq α] (d : List (α × β)) (k : α) (v : β) :
    List (α × β) :=
  match d with
  | [] => [(k, v)]
  | (k0, v0) :: rest =>
    if k0 = k then (k, v) :: rest else (k0, v0) :: dictInsert rest k v

/-- Left fold merging key/value pairs with Python `dict.update` semantics
(`result = \x7b\x7d; for obj in array_obj: result.update(obj)`). -/
def mergePairs {α β : Type} [DecidableEq α] (pairs : List (α × β)) :
    List (α × β) :=
  pairs.foldl (fun r kv => dictInsert r kv.1 kv.2) []

/-- The per-chunk body of `parse_comment_tag`'s loop (gcode_reader.py lines
55-71): lower-case the chunk, and if it contains `:`, split on ALL colons,
take piece 0 as the key and piece 1 as the value, strip both, and parse the
value as a number when possible. -/
def tagChunk (c : List Char) : Option (List Char × TagValue) :=
  let comment_tag_args := c.map lowerChar
  if comment_tag_args.contains ':' then
    match splitOnChar ':' comment_tag_args with
    | k :: v :: _ =>
      let key := trimCL k
      let raw_value := trimCL v
      let value :=
        match pyFloat raw_value with
        | some q => TagValue.num q
        | none => TagValue.str raw_value
      some (key, value)
    | _ => none
  else none

/-- `parse_comment_tag` (gcode_reader.py lines 33-78), with the default
identity `case_transform_fn` inlined: split the comment on `,`, process each
chunk, and merge the resulting singleton dicts left to right. -/
def parse_comment_tag (comment : List Char) : List (List Char × TagValue) :=
  if 0 < comment.length then
    mergePairs ((splitOnChar ',' comment).filterMap tagChunk)
  else []

/-- ASCII lower-casing of a string (init-time processing of axis names). -/
def lowerString (s : String) : String := String.mk (s.data.map lowerChar)

/-- `PositionSystem` enum (geometry_parser.py lines 8-10). -/
inductive PositionSystem where
  | ABSOLUTE
  | RELATIVE
deriving DecidableEq, Repr

/-- The curve segments emitted by the geometry interpreter: `Line` and `Arc`
dataclasses of geometry_parser.py (`stop` stands for the Python field `end`,
a reserved word here; `dir` is the Python string `"cw"`/`"ccw"`). -/
inductive Curve where
  | line (start stop : Pt3) (feedrate : ℚ)
  | arc (start stop : Pt3) (feedrate : ℚ) (dir : String) (center : ℚ × ℚ)
deriving DecidableEq, Repr

def Curve.startPt : Curve → Pt3
  | .line s _ _ => s
  | .arc s _ _ _ _ => s

def Curve.endPt : Curve → Pt3
  | .line _ e _ => e
  | .arc _ e _ _ _ => e

def Curve.feedrateOf : Curve → ℚ
  | .line _ _ f => f
  | .arc _ _ f _ _ => f

/-- Arc center when the curve is an arc. -/
def Curve.centerOf : Curve → Option (ℚ × ℚ)
  | .line _ _ _ => none
  | .arc _ _ _ _ c => some c

/-- Numeric G-code parameters: an insertion-ordered `dict[str, float]`.  The
tokenizer can also record bare letters as boolean flags; flag values are
outside this numeric model (no claim uses them). -/
abbrev Args := List (String × ℚ)

/-- `GcodeCommand` as consumed by `GeometryParser.process`: the command string
(e.g. `"G1"`), the numeric parameters, and the parsed comment tag. -/
structure GcodeCommand where
  cmd : Option String
  args : Args
  tag : List (List Char × TagValue)
deriving DecidableEq, Repr

/-- Mutable state of `GeometryParser` (geometry_parser.py lines 104-141):
`position` is the `\x7b"x","y","z"\x7d` dict, plus the position system, the
persisted feedrate, the accumulated geometry, the three configured axis
source letters, and the line counter. -/
structure GPState where
  position : Pt3
  positionSystem : PositionSystem
  feedrate : ℚ
  geometry : List Curve
  x_axis : String
  y_axis : String
  z_axis : String
  lineCount : ℕ
deriving DecidableEq, Repr

/-- `GeometryParser.__init__`: zero position, empty geometry, axis names
lower-cased. -/
def initGP (xa ya za : String) (ps : PositionSystem) (fr : ℚ) : GPState :=
  { position := Pt3.origin
    positionSystem := ps
    feedrate := fr
    geometry := []
    x_axis := lowerString xa
    y_axis := lowerString ya
    z_axis := lowerString za
    lineCount := 0 }

/-- The parser with all-default construction arguments. -/
def initDefault : GPState := initGP "x" "y" "z" PositionSystem.ABSOLUTE 100

def isRelativePosition (st : GPState) : Bool :=
  st.positionSystem = PositionSystem.RELATIVE

def isAbsolutePosition (st : GPState) : Bool :=
  st.positionSystem = PositionSystem.ABSOLUTE

/-- The configured source letter for an axis role: `getattr(self, axis +
"_axis")` guarded by `hasattr` — only the roles `"x"`, `"y"`, `"z"` have such
an attribute. -/
def axisKey (st : GPState) (axis : String) : Option String :=
  if axis = "x" then some st.x_axis
  else if axis = "y" then some st.y_axis
  else if axis = "z" then some st.z_axis
  else none

/-- `GeometryParser.getAxisValue` (geometry_parser.py lines 164-172): prefer
the configured source letter, fall back to the canonical letter, else `None`.
-/
def getAxisValue (st : GPState) (args : Args) (axis : String) : Option ℚ :=
  match axisKey st axis with
  | some axis_key =>
    match args.lookup axis_key with
    | some v => some v
    | none => args.lookup axis
  | none => args.lookup axis

/-- `GeometryParser.getAllAxesValues` (lines 174-187): target position of a
move.  Absolute mode keeps the previous coordinate for an unspecified axis;
relative mode adds a zero delta (`or 0` on a numeric value is `getD 0`). -/
def getAllAxesValues (st : GPState) (args : Args) : Pt3 :=
  if isAbsolutePosition st then
    { x := (getAxisValue st args "x").getD st.position.x
      y := (getAxisValue st args "y").getD st.position.y
      z := (getAxisValue st args "z").getD st.position.z }
  else if isRelativePosition st then
    { x := st.position.x + (getAxisValue st args "x").getD 0
      y := st.position.y + (getAxisValue st args "y").getD 0
      z := st.position.z + (getAxisValue st args "z").getD 0 }
  else Pt3.origin

/-- `GeometryParser.G0` (lines 189-202): commit the new position and append a
`Line` from the previous position; segment feedrate is `args.get("f",
self.feedrate)`.  (`G1` delegates here.) -/
def G0 (st : GPState) (args : Args) : GPState :=
  let prev_position := st.position
  let vals := getAllAxesValues st args
  { st with
    position := vals
    geometry := st.geometry ++
      [Curve.line prev_position vals ((args.lookup "f").getD st.feedrate)] }

/-- `GeometryParser.G2` (lines 207-228), also used by `G3` with `dir="ccw"`:
commit the new position and append an `Arc`; the center starts as the raw
`(i, j)` parameters and the previous position is added ONLY under relative
mode. -/
def G2 (st : GPState) (args : Args) (dir : String) : GPState :=
  let prev_position := st.position
  let vals := getAllAxesValues st args
  let center_x := (args.lookup "i").getD 0
  let center_y := (args.lookup "j").getD 0
  let center :=
    if isRelativePosition st then (center_x + prev_position.x, center_y + prev_position.y)
    else (center_x, center_y)
  { st with
    position := vals
    geometry := st.geometry ++
      [Curve.arc prev_position vals ((args.lookup "f").getD st.feedrate) dir center] }

/-- `GeometryParser.processComment` (lines 159-162): a tag entry with key
exactly `"CTS"` overwrites the persisted feedrate; all other keys are
ignored.  (Python would store even a non-numeric value; the numeric model
only commits numeric ones — tokenized tags with a `"CTS"` key never occur,
see the C4 theorem.) -/
def processComment (st : GPState) (tag : List (List Char × TagValue)) : GPState :=
  tag.foldl
    (fun s kv =>
      if kv.1 = "CTS".toList then
        match kv.2 with
        | TagValue.num q => { s with feedrate := q }
        | TagValue.str _ => s
      else s)
    st

/-- The `hasattr`/`getattr` dispatch of `GeometryParser.process`: the G/M
command strings the tokenizer can produce reach exactly the six handlers
below; everything else has no handler attribute and is ignored. -/
def dispatchCmd (st : GPState) (c : GcodeCommand) : GPState :=
  if c.cmd = some "G0" then G0 st c.args
  else if c.cmd = some "G1" then G0 st c.args
  else if c.cmd = some "G2" then G2 st c.args "cw"
  else if c.cmd = some "G3" then G2 st c.args "ccw"
  else if c.cmd = some "G90" then { st with positionSystem := PositionSystem.ABSOLUTE }
  else if c.cmd = some "G91" then { st with positionSystem := PositionSystem.RELATIVE }
  else st

/-- One iteration of `GeometryParser.process`'s loop (lines 143-151): bump the
line counter, dispatch on the command, then process the comment tag when one
was parsed. -/
def processOne (st : GPState) (c : GcodeCommand) : GPState :=
  let st1 := dispatchCmd { st with lineCount := st.lineCount + 1 } c
  if c.tag = [] then st1 else processComment st1 c.tag

/-- `GeometryParser.process` over a command array. -/
def process (st : GPState) (cmds : List GcodeCommand) : GPState :=
  cmds.foldl processOne st

/-! ## gcode_segment.py: kinematics parser branches and the resampler -/

/-- `np.finfo('double').eps` is exactly `2⁻⁵²`. -/
def npEps : ℚ := 1 / 2 ^ 52

/-- `EPS = np.finfo('double').eps * 10` of `GcodeSegment.__init__` (line 92). -/
def EPS10 : ℚ := 10 / 2 ^ 52

/-- Exact square root on rationals whose numerator and denominator are perfect
squares, used to instantiate the abstract Euclidean norm at concrete inputs;
the source computes `np.linalg.norm` with floating `sqrt`, which is exact on
such inputs.  (Outside perfect squares this returns `0` and is never used by
a theorem.) -/
def ratSqrt (q : ℚ) : ℚ :=
  let n := Nat.sqrt q.num.toNat
  let d := Nat.sqrt q.den
  if 0 ≤ q.num ∧ (n : ℤ) * n = q.num ∧ d * d = q.den then (n : ℚ) / d else 0

/-- Euclidean norm of a vector, exact when the squared norm is a perfect
square (all concrete inputs in this file are of that shape). -/
def euclidNorm (v : Pt3) : ℚ := ratSqrt (v.x ^ 2 + v.y ^ 2 + v.z ^ 2)

/-- The growing `(positions, velocities, times)` triple accumulated by
`GcodeSegment.__init__`. -/
structure KinState where
  positions : List Pt3
  velocities : List ℚ
  times : List ℚ
deriving DecidableEq, Repr

/-- `GcodeSegment.__init__` starts from one zero position and empty speed and
time lists (lines 89-91). -/
def initKin : KinState := ⟨[Pt3.origin], [], []⟩

/-- The linear-move branch of `GcodeSegment.__init__` (lines 158-171),
parameterized by the Euclidean-norm function: push the speed and position;
a move shorter than `EPS` is popped again (useless movement); otherwise the
traversal time `distance / speed` is pushed when `speed > EPS`, and a
`ValueError` is raised when it is not. -/
def linearMoveStep (norm : Pt3 → ℚ) (st : KinState) (new_pos : Pt3) (speed : ℚ) :
    Except Unit KinState :=
  let prev_pos := st.positions.getLastD Pt3.origin
  let d := norm (psub new_pos prev_pos)
  if d < EPS10 then Except.ok st
  else if EPS10 < speed then
    Except.ok
      { positions := st.positions ++ [new_pos]
        velocities := st.velocities ++ [speed]
        times := st.times ++ [d / speed] }
  else Except.error ()

/-- The `G4` dwell branch of `GcodeSegment.__init__` (lines 262-277):
accumulate `P` (milliseconds) plus `S * 1000` (seconds scaled to
milliseconds); when the total is positive, duplicate the current position and
push velocity `0` and the dwell converted to minutes. -/
def g4Step (st : KinState) (p s : Option ℚ) : KinState :=
  let new_pos := st.positions.getLastD Pt3.origin
  let dwell_msec := (match p with | some q => q | none => 0) +
    (match s with | some q => q * 1000 | none => 0)
  if 0 < dwell_msec then
    { positions := st.positions ++ [new_pos]
      velocities := st.velocities ++ [0]
      times := st.times ++ [dwell_msec / 1000 / 60] }
  else st

/-- The dwell total in milliseconds, as the claim and code both accumulate it.
-/
def dwellMsec (p s : Option ℚ) : ℚ :=
  (match p with | some q => q | none => 0) +
    (match s with | some q => q * 1000 | none => 0)

/-- Failure labels for the assertions and errors inside `create_linespace`. -/
inductive LsError where
  | lenMismatch
  | noPositiveTime
  | tstepNonpos
  | stepsTooSmall
  | emptyRange
  | emptyLines
deriving DecidableEq, Repr

/-- The times-recomputation loop of `create_linespace` (lines 353-360), run
when the supplied `times` length does not match: entry `i` becomes
`distance(i, i+1) / speeds[i]` when `speeds[i] > eps` and stays `0` otherwise
(the loop breaks before the last position, leaving trailing zeros). -/
def recomputeTimes (norm : Pt3 → ℚ) (lines : List Pt3) (speeds : List ℚ)
    (eps : ℚ) : List ℚ :=
  (List.range speeds.length).map fun i =>
    if i + 1 < lines.length then
      let d := norm (psub (lines.getD (i + 1) Pt3.origin) (lines.getD i Pt3.origin))
      if eps < speeds.getD i 0 then d / speeds.getD i 0 else 0
    else 0

/-- The local `number_steps = times[i] / t_step` of `create_linespace`. -/
def numberSteps (t t_step : ℚ) : ℚ := t / t_step

/-- `int(np.ceil(number_steps))` (nonpositive values clamp to 0, where numpy
would produce a nonpositive integer and the subsequent `arange` an empty
range). -/
def numberStepsCeil (t t_step : ℚ) : ℕ := ⌈t / t_step⌉.toNat

/-- `number_steps_decimal = number_steps - np.floor(number_steps)`. -/
def numberStepsDecimal (t t_step : ℚ) : ℚ := t / t_step - ⌊t / t_step⌋

/-- `unit_S`: the direction vector normalized when its norm exceeds `1e-9`,
else the zero vector (create_linespace lines 393-396). -/
def unitOf (norm : Pt3 → ℚ) (p0 p1 : Pt3) : Pt3 :=
  if 1 / 10 ^ 9 < norm (psub p1 p0) then smul (1 / norm (psub p1 p0)) (psub p1 p0)
  else Pt3.origin

/-- `step_ranges = np.arange(0, ceil)` with the last entry lowered by
`1 - number_steps_decimal` when the fractional remainder exceeds `eps`
(lines 400-406). -/
def stepRanges (eps t t_step : ℚ) : List ℚ :=
  if eps < numberStepsDecimal t t_step then
    ((List.range (numberStepsCeil t t_step)).map (fun i => (i : ℚ))).dropLast ++
      [((numberStepsCeil t t_step : ℚ) - 1) - (1 - numberStepsDecimal t t_step)]
  else (List.range (numberStepsCeil t t_step)).map (fun i => (i : ℚ))

/-- `_t`: per-sample time deltas, a full `t_step` each except the fractional
last step (lines 410-414). -/
def tDeltas (eps t t_step : ℚ) : List ℚ :=
  if eps < numberStepsDecimal t t_step then
    (List.replicate (numberStepsCeil t t_step) t_step).dropLast ++
      [numberStepsDecimal t t_step * t_step]
  else List.replicate (numberStepsCeil t t_step) t_step

/-- One iteration of `create_linespace`'s main loop (lines 375-428) for the
segment from `p0` to `p1` with speed `speed` and traversal time `t`: skipped
when `t < eps`; otherwise `ceil(t / t_step)` samples whose last step carries
the fractional remainder, positions linearly interpolated as
`p0 + t_i * (speed * unit)`, velocity constant `speed * unit`. -/
def segBlock (norm : Pt3 → ℚ) (t_step eps : ℚ) (p0 p1 : Pt3) (speed t : ℚ) :
    Except LsError (List Pt3 × List Pt3 × List ℚ) :=
  if t < eps then Except.ok ([], [], [])
  else if numberSteps t t_step ≤ eps then Except.error LsError.stepsTooSmall
  else if numberStepsCeil t t_step = 0 then Except.error LsError.emptyRange
  else
    Except.ok
      ((stepRanges eps t t_step).map
        (fun r => padd p0 (smul (r * t_step) (smul speed (unitOf norm p0 p1)))),
       List.replicate (numberStepsCeil t t_step) (smul speed (unitOf norm p0 p1)),
       tDeltas eps t t_step)

/-- The `times` actually used by `create_linespace`: recomputed when the
supplied list's length does not match the positions (lines 353-360). -/
def effectiveTimes (norm : Pt3 → ℚ) (lines : List Pt3) (speeds times0 : List ℚ)
    (eps : ℚ) : List ℚ :=
  if times0.length ≠ lines.length then recomputeTimes norm lines speeds eps else times0

/-- `t_step` selection (lines 364-370): from `time_resolution` it is
`10 ^ ceil(log10(min positive time / time_resolution))` — `Int.clog` is the
exact ceiling-log, where floating `np.log10` can land one power off on exact
powers of ten — and `np.min` of no positive times is an error; otherwise the
caller's `time_step` is used as is. -/
def tstepOf (times : List ℚ) (time_resolution : Option ℚ) (time_step : ℚ) :
    Except LsError ℚ :=
  match time_resolution with
  | some res =>
    match (times.filter (fun t => 0 < t)).min? with
    | none => Except.error LsError.noPositiveTime
    | some m => Except.ok ((10 : ℚ) ^ (Int.clog 10 (m / res)))
  | none => Except.ok time_step

/-- `create_linespace` (gcode_segment.py lines 317-441), parameterized by the
Euclidean norm: check lengths, fix the effective times and `t_step`, run the
per-segment loop, then terminate with the last raw position at zero velocity
and zero time delta.  Assertion failures and the indexing error on empty
input surface as `LsError`s. -/
def create_linespace (norm : Pt3 → ℚ) (lines : List Pt3) (speeds times0 : List ℚ)
    (time_resolution : Option ℚ) (time_step : ℚ) (eps : ℚ) :
    Except LsError (List Pt3 × List Pt3 × List ℚ) :=
  if lines.length ≠ speeds.length then Except.error LsError.lenMismatch
  else
    match tstepOf (effectiveTimes norm lines speeds times0 eps) time_resolution time_step with
    | Except.error e => Except.error e
    | Except.ok t_step =>
      if t_step ≤ 0 then Except.error LsError.tstepNonpos
      else if lines.isEmpty then Except.error LsError.emptyLines
      else
        match (List.range (lines.length - 1)).mapM
            (fun i =>
              segBlock norm t_step eps (lines.getD i Pt3.origin)
                (lines.getD (i + 1) Pt3.origin) (speeds.getD i 0)
                ((effectiveTimes norm lines speeds times0 eps).getD i 0)) with
        | Except.error e => Except.error e
        | Except.ok bs =>
          Except.ok
            ((bs.map (fun b => b.1)).flatten ++ [lines.getLastD Pt3.origin],
             (bs.map (fun b => b.2.1)).flatten ++ [Pt3.origin],
             (bs.map (fun b => b.2.2)).flatten ++ [0])

/-! ## Arc rasterization (`Arc.compute_points`, geometry_parser.py lines 74-101)

The Python code computes with floating `math.atan2`, `cos`, `sin`, `sqrt`;
the embedding uses `ℝ` (with `atan2 y x = Complex.arg (x + y·i)`), so these
definitions are noncomputable and theorems about them are proved with real
analysis rather than evaluation. -/

/-- Real-valued 3-D point for the arc rasterizer. -/
structure RPt where
  x : ℝ
  y : ℝ
  z : ℝ

/-- The `Arc` dataclass over `ℝ` (`stop` stands for the Python field `end`).
The parser always builds 3-element start/end lists, so the
`len(self.start) > 2` branch of the z interpolation is the one modelled. -/
structure ArcR where
  start : RPt
  stop : RPt
  dir : String
  center : ℝ × ℝ

/-- `math.atan2` on reals: the argument of the complex number `x + y·i`. -/
noncomputable def atan2 (y x : ℝ) : ℝ := Complex.arg ⟨x, y⟩

/-- The local `radius` of `compute_points`: distance from start to center. -/
noncomputable def radiusOf (a : ArcR) : ℝ :=
  Real.sqrt ((a.start.x - a.center.1) ^ 2 + (a.start.y - a.center.2) ^ 2)

/-- The local `start_angle` of `compute_points`. -/
noncomputable def startAngle (a : ArcR) : ℝ :=
  atan2 (a.start.y - a.center.2) (a.start.x - a.center.1)

/-- The local `end_angle` of `compute_points`. -/
noncomputable def endAngle (a : ArcR) : ℝ :=
  atan2 (a.stop.y - a.center.2) (a.stop.x - a.center.1)

open Classical in
/-- The `angleCalc` value after the direction fold (lines 80-85) and before
the small-angle snap. -/
noncomputable def rawSweep (a : ArcR) : ℝ :=
  if a.dir = "cw" ∧ 0 < endAngle a - startAngle a then
    endAngle a - startAngle a - 2 * Real.pi
  else if ¬a.dir = "cw" ∧ endAngle a - startAngle a < 0 then
    endAngle a - startAngle a + 2 * Real.pi
  else endAngle a - startAngle a

open Classical in
/-- The final `angleCalc` (lines 87-88): a sweep of magnitude below `1e-3` is
snapped to a full circle in the commanded direction. -/
noncomputable def sweep (a : ArcR) : ℝ :=
  if |rawSweep a| < 1 / 1000 then
    (if ¬a.dir = "cw" then 2 * Real.pi else -(2 * Real.pi))
  else rawSweep a

/-- `Arc.compute_points(num_points)` (lines 74-101): `num_points + 1` samples
at `t = i / num_points`, angle `start_angle + t * angleCalc`, position on the
circle of radius `radius` about the center, z linearly interpolated. -/
noncomputable def compute_points (a : ArcR) (num_points : ℕ) : List RPt :=
  (List.range (num_points + 1)).map fun (i : ℕ) =>
    ⟨a.center.1 + radiusOf a *
       Real.cos (startAngle a + (i : ℝ) / (num_points : ℝ) * sweep a),
     a.center.2 + radiusOf a *
       Real.sin (startAngle a + (i : ℝ) / (num_points : ℝ) * sweep a),
     a.start.z + (i : ℝ) / (num_points : ℝ) * (a.stop.z - a.start.z)⟩

/-! ## Reference definitions and concrete inputs used by the claim theorems -/

/-- Taking the part of a chunk strictly before the first `sep`. -/
def beforeChar (sep : Char) (l : List Char) : List Char :=
  l.takeWhile (fun d => !(d == sep))

/-- Taking the part of a chunk strictly after the first `sep`. -/
def afterChar (sep : Char) (l : List Char) : List Char :=
  (l.dropWhile (fun d => !(d == sep))).drop 1

/-- Per-chunk processing exactly as claim C5's reference definition states it:
split at the FIRST `:`; key = part before, lower-cased and trimmed; value =
the ENTIRE part after the first `:`, trimmed, numeric-parsed when possible and
otherwise kept as the ORIGINAL (non-lower-cased) string. -/
def tagChunkClaim (c : List Char) : Option (List Char × TagValue) :=
  if c.contains ':' then
    let key := trimCL ((beforeChar ':' c).map lowerChar)
    let raw_value := trimCL (afterChar ':' c)
    some (key,
      match pyFloat raw_value with
      | some q => TagValue.num q
      | none => TagValue.str raw_value)
  else none

/-- Claim C5's reference comment-tag parser, as stated. -/
def parseCommentTagClaim (comment : List Char) : List (List Char × TagValue) :=
  if 0 < comment.length then
    mergePairs ((splitOnChar ',' comment).filterMap tagChunkClaim)
  else []

/-- Per-chunk processing per the AMENDED reference definition: as the claim
states it, except that the value is the part between the first and the second
`:` (text after a second colon is dropped) and is lower-cased like the key
(the code lower-cases the whole chunk before splitting). -/
def tagChunkAmended (c : List Char) : Option (List Char × TagValue) :=
  if c.contains ':' then
    let key := trimCL ((beforeChar ':' c).map lowerChar)
    let raw_value := trimCL ((beforeChar ':' (afterChar ':' c)).map lowerChar)
    some (key,
      match pyFloat raw_value with
      | some q => TagValue.num q
      | none => TagValue.str raw_value)
  else none

/-- The amended reference comment-tag parser. -/
def parseCommentTagAmended (comment : List Char) : List (List Char × TagValue) :=
  if 0 < comment.length then
    mergePairs ((splitOnChar ',' comment).filterMap tagChunkAmended)
  else []

/-- Segment-chain predicate for the continuity invariant: the first segment
starts at `p` and every later segment starts where its predecessor ended. -/
def chainedFrom (p : Pt3) : List Curve → Prop
  | [] => True
  | c :: rest => c.startPt = p ∧ chainedFrom c.endPt rest

/-- End point of the last segment, or `d` when there is none. -/
def lastEndD (d : Pt3) : List Curve → Pt3
  | [] => d
  | c :: rest => lastEndD c.endPt rest

/-- The continuity invariant carried through the interpreter loop: the
geometry chains from the origin and its last end point is the current
position. -/
def gpInv (st : GPState) : Prop :=
  chainedFrom Pt3.origin st.geometry ∧ lastEndD Pt3.origin st.geometry = st.position

/-- C1 demo: an absolute move to (5, 5), then `G2 I1 J0`. -/
def c1cmdA : GcodeCommand := ⟨some "G0", [("x", 5), ("y", 5)], []⟩

def c1cmdB : GcodeCommand := ⟨some "G2", [("i", 1), ("j", 0)], []⟩

/-- C2 demo: `G1 X1 F50` then `G1 X2`. -/
def c2cmdA : GcodeCommand := ⟨some "G1", [("x", 1), ("f", 50)], []⟩

def c2cmdB : GcodeCommand := ⟨some "G1", [("x", 2)], []⟩

/-- C4 demo: `G1 X1 ; cts:500` as tokenized (the tag is what
`parse_comment_tag` produces for the comment). -/
def ctsCmd : GcodeCommand :=
  ⟨some "G1", [("x", 1)], parse_comment_tag ("cts:500".toList)⟩

/-- C7 witness demo commands. -/
def c7cmdA : GcodeCommand := ⟨some "G0", [("x", 1)], []⟩

def c7cmdB : GcodeCommand := ⟨some "G1", [("y", 2)], []⟩

/-- A parser whose x role reads source letter `"a"` (C10 witness). -/
def remapGP : GPState := initGP "a" "y" "z" PositionSystem.ABSOLUTE 100

/-- C9 counterexample arc: start on the unit circle about the origin, end
well off that circle. -/
def caDemo : ArcR := ⟨⟨1, 0, 0⟩, ⟨3, 0, 0⟩, "cw", (0, 0)⟩

/-- C9 witness arc: a half circle from (1,0) to (-1,0) about the origin. -/
def cwDemo : ArcR := ⟨⟨1, 0, 0⟩, ⟨-1, 0, 0⟩, "cw", (0, 0)⟩

/-- C6/C8 demo raw positions. -/
def demoLines : List Pt3 := [⟨0, 0, 0⟩, ⟨1, 0, 0⟩]

/-! ## Helper lemmas -/

/-- `processComment` can only rewrite the persisted feedrate; every other
field survives. -/
theorem processComment_shape :
    ∀ (tag : List (List Char × TagValue)) (st : GPState),
      ∃ fr, processComment st tag = { st with feedrate := fr }
  | [], st => ⟨st.feedrate, rfl⟩
  | (k, v) :: rest, st => by
    have h1 : processComment st ((k, v) :: rest) =
        processComment
          (if k = "CTS".toList then
            match v with
            | TagValue.num q => { st with feedrate := q }
            | TagValue.str _ => st
          else st) rest := rfl
    rw [h1]
    by_cases hk : k = "CTS".toList
    · rw [if_pos hk]
      cases v with
      | num q => exact processComment_shape rest { st with feedrate := q }
      | str s => exact processComment_shape rest st
    · rw [if_neg hk]
      exact processComment_shape rest st

theorem processComment_geometry (st : GPState) (tag : List (List Char × TagValue)) :
    (processComment st tag).geometry = st.geometry := by
  obtain ⟨fr, h⟩ := processComment_shape tag st
  rw [h]

theorem processComment_position (st : GPState) (tag : List (List Char × TagValue)) :
    (processComment st tag).position = st.position := by
  obtain ⟨fr, h⟩ := processComment_shape tag st
  rw [h]

/-- Dispatch reduction for a `G2` command. -/
theorem processOne_G2 (st : GPState) (c : GcodeCommand) (h : c.cmd = some "G2") :
    processOne st c =
      (if c.tag = [] then G2 { st with lineCount := st.lineCount + 1 } c.args "cw"
       else processComment (G2 { st with lineCount := st.lineCount + 1 } c.args "cw") c.tag) := by
  simp [processOne, dispatchCmd, h]

/-- Dispatch reduction for a `G3` command. -/
theorem processOne_G3 (st : GPState) (c : GcodeCommand) (h : c.cmd = some "G3") :
    processOne st c =
      (if c.tag = [] then G2 { st with lineCount := st.lineCount + 1 } c.args "ccw"
       else processComment (G2 { st with lineCount := st.lineCount + 1 } c.args "ccw") c.tag) := by
  simp [processOne, dispatchCmd, h]

/-- Dispatch reduction for a `G0` command. -/
theorem processOne_G0 (st : GPState) (c : GcodeCommand) (h : c.cmd = some "G0") :
    processOne st c =
      (if c.tag = [] then G0 { st with lineCount := st.lineCount + 1 } c.args
       else processComment (G0 { st with lineCount := st.lineCount + 1 } c.args) c.tag) := by
  simp [processOne, dispatchCmd, h]

/-- Dispatch reduction for a `G1` command. -/
theorem processOne_G1 (st : GPState) (c : GcodeCommand) (h : c.cmd = some "G1") :
    processOne st c =
      (if c.tag = [] then G0 { st with lineCount := st.lineCount + 1 } c.args
       else processComment (G0 { st with lineCount := st.lineCount + 1 } c.args) c.tag) := by
  simp [processOne, dispatchCmd, h]

/-! ## C1: arc center derivation -/

/-- C1 counterexample: from the absolute-mode state at position (5,5), the
command `G2 I1 J0` emits an arc whose center is the raw `(1, 0)`, not the
claimed previous-position offset `(5+1, 5+0)`. -/
theorem c1_center_counterexample :
    ((process initDefault [c1cmdA, c1cmdB]).geometry.map Curve.centerOf) =
        [none, some (1, 0)] ∧
      ¬ (some ((1 : ℚ), (0 : ℚ)) = some ((5 : ℚ) + 1, (5 : ℚ) + 0)) := by
  refine ⟨by decide, by norm_num⟩

/-- C1 (amended): the emitted Arc's center is the pre-move position plus the
`(i, j)` offset under Relative mode only; under Absolute mode the center is
the raw `(i, j)` values themselves. -/
theorem c1_center_amended (st : GPState) (c : GcodeCommand)
    (h : c.cmd = some "G2" ∨ c.cmd = some "G3") :
    ∃ seg, (processOne st c).geometry = st.geometry ++ [seg] ∧
      seg.centerOf = some
        (if isRelativePosition st then
          ((c.args.lookup "i").getD 0 + st.position.x,
           (c.args.lookup "j").getD 0 + st.position.y)
         else ((c.args.lookup "i").getD 0, (c.args.lookup "j").getD 0)) := by
  have main : ∀ dir,
      processOne st c =
        (if c.tag = [] then G2 { st with lineCount := st.lineCount + 1 } c.args dir
         else processComment (G2 { st with lineCount := st.lineCount + 1 } c.args dir) c.tag) →
      ∃ seg, (processOne st c).geometry = st.geometry ++ [seg] ∧
        seg.centerOf = some
          (if isRelativePosition st then
            ((c.args.lookup "i").getD 0 + st.position.x,
             (c.args.lookup "j").getD 0 + st.position.y)
           else ((c.args.lookup "i").getD 0, (c.args.lookup "j").getD 0)) := by
    intro dir hd
    refine ⟨Curve.arc st.position (getAllAxesValues { st with lineCount := st.lineCount + 1 } c.args)
      ((c.args.lookup "f").getD st.feedrate) dir
      (if isRelativePosition st then
        ((c.args.lookup "i").getD 0 + st.position.x,
         (c.args.lookup "j").getD 0 + st.position.y)
       else ((c.args.lookup "i").getD 0, (c.args.lookup "j").getD 0)), ?_, rfl⟩
    by_cases htag : c.tag = []
    · rw [hd, if_pos htag]
      rfl
    · rw [hd, if_neg htag, processComment_geometry]
      rfl
  rcases h with h | h
  · exact main "cw" (processOne_G2 st c h)
  · exact main "ccw" (processOne_G3 st c h)

/-- C1 witness: the amended theorem applied to the demo `G2 I1 J0` command
from the default initial state. -/
theorem c1_center_witness :
    ∃ seg, (processOne initDefault c1cmdB).geometry = initDefault.geometry ++ [seg] ∧
      seg.centerOf = some
        (if isRelativePosition initDefault then
          ((c1cmdB.args.lookup "i").getD 0 + initDefault.position.x,
           (c1cmdB.args.lookup "j").getD 0 + initDefault.position.y)
         else ((c1cmdB.args.lookup "i").getD 0, (c1cmdB.args.lookup "j").getD 0)) :=
  c1_center_amended initDefault c1cmdB (Or.inl rfl)

/-! ## C2: feed rate of linear moves -/

/-- C2 counterexample: `G1 X1 F50` then `G1 X2`; the second segment's
feedrate is the initial 100, not 50 — the `f` parameter was not persisted. -/
theorem c2_feedrate_counterexample :
    ((process initDefault [c2cmdA, c2cmdB]).geometry.map Curve.feedrateOf) = [50, 100] ∧
      ¬ ((100 : ℚ) = 50) := by
  refine ⟨by decide, by norm_num⟩

/-- C2 (amended): a `G0`/`G1` segment's feedrate is the `f` parameter when
present and otherwise the persisted feedrate, but the persisted feedrate is
NOT updated by `f` (absent comment tags, the interpreter feedrate survives
the command unchanged). -/
theorem c2_feedrate_amended (st : GPState) (c : GcodeCommand)
    (h : c.cmd = some "G0" ∨ c.cmd = some "G1") (htag : c.tag = []) :
    ∃ seg, (processOne st c).geometry = st.geometry ++ [seg] ∧
      seg.feedrateOf = (c.args.lookup "f").getD st.feedrate ∧
      (processOne st c).feedrate = st.feedrate := by
  have hd : processOne st c =
      (if c.tag = [] then G0 { st with lineCount := st.lineCount + 1 } c.args
       else processComment (G0 { st with lineCount := st.lineCount + 1 } c.args) c.tag) := by
    rcases h with h | h
    · exact processOne_G0 st c h
    · exact processOne_G1 st c h
  rw [hd, if_pos htag]
  exact ⟨Curve.line st.position (getAllAxesValues { st with lineCount := st.lineCount + 1 } c.args)
    ((c.args.lookup "f").getD st.feedrate), rfl, rfl, rfl⟩

/-- C2 witness: the amended theorem applied to the demo `G1 X1 F50` command
from the default initial state. -/
theorem c2_feedrate_witness :
    ∃ seg, (processOne initDefault c2cmdA).geometry = initDefault.geometry ++ [seg] ∧
      seg.feedrateOf = (c2cmdA.args.lookup "f").getD initDefault.feedrate ∧
      (processOne initDefault c2cmdA).feedrate = initDefault.feedrate :=
  c2_feedrate_amended initDefault c2cmdA (Or.inr rfl) rfl

/-! ## C3: G4 dwell handling -/

/-- C3 counterexample: `G4 P60000` (one minute) pushes the time entry `1`
(minutes), while the claim's to-seconds conversion would give `60`. -/
theorem c3_dwell_counterexample :
    (g4Step initKin (some 60000) none).times = [1] ∧
      dwellMsec (some 60000) none / 1000 = 60 ∧ ¬ ((1 : ℚ) = 60) := by
  refine ⟨by norm_num [g4Step, initKin], by norm_num [dwellMsec], by norm_num⟩

/-- C3 (amended): a `G4` dwell accumulates `p + 1000·s` milliseconds, emits a
sample (duplicated position, zero velocity, the total converted to MINUTES)
iff the total is positive, and never moves the current position. -/
theorem c3_dwell_amended (st : KinState) (p s : Option ℚ) (h : st.positions ≠ []) :
    (g4Step st p s).positions.getLast? = st.positions.getLast? ∧
      (g4Step st p s).times =
        st.times ++ (if 0 < dwellMsec p s then [dwellMsec p s / 1000 / 60] else []) ∧
      (g4Step st p s).velocities =
        st.velocities ++ (if 0 < dwellMsec p s then [(0 : ℚ)] else []) ∧
      (g4Step st p s).positions.length =
        st.positions.length + (if 0 < dwellMsec p s then 1 else 0) := by
  obtain ⟨a, ha⟩ : ∃ a, st.positions.getLast? = some a := by
    cases hq : st.positions.getLast? with
    | some a => exact ⟨a, rfl⟩
    | none => exact absurd (List.getLast?_eq_none_iff.mp hq) h
  have hlastD : st.positions.getLastD Pt3.origin = a := by
    rw [List.getLastD_eq_getLast?, ha]
    rfl
  have hmsec : (match p with | some q => q | none => 0) +
      (match s with | some q => q * 1000 | none => 0) = dwellMsec p s := rfl
  by_cases hpos : 0 < dwellMsec p s
  · have hstep : g4Step st p s =
        { positions := st.positions ++ [st.positions.getLastD Pt3.origin]
          velocities := st.velocities ++ [0]
          times := st.times ++ [dwellMsec p s / 1000 / 60] } := by
      unfold g4Step
      rw [hmsec, if_pos hpos]
    rw [hstep]
    refine ⟨?_, by rw [if_pos hpos], by rw [if_pos hpos], ?_⟩
    · rw [hlastD, List.getLast?_concat, ha]
    · simp [if_pos hpos]
  · have hstep : g4Step st p s = st := by
      unfold g4Step
      rw [hmsec, if_neg hpos]
    rw [hstep]
    refine ⟨rfl, by rw [if_neg hpos]; simp, by rw [if_neg hpos]; simp,
      by rw [if_neg hpos]; simp⟩

/-- C3 witness: the amended theorem applied to `G4 P1000 S1` from the fresh
kinematics state. -/
theorem c3_dwell_witness :
    (g4Step initKin (some 1000) (some 1)).positions.getLast? = initKin.positions.getLast? ∧
      (g4Step initKin (some 1000) (some 1)).times =
        initKin.times ++
          (if 0 < dwellMsec (some 1000) (some 1) then
            [dwellMsec (some 1000) (some 1) / 1000 / 60] else []) ∧
      (g4Step initKin (some 1000) (some 1)).velocities =
        initKin.velocities ++ (if 0 < dwellMsec (some 1000) (some 1) then [(0 : ℚ)] else []) ∧
      (g4Step initKin (some 1000) (some 1)).positions.length =
        initKin.positions.length + (if 0 < dwellMsec (some 1000) (some 1) then 1 else 0) :=
  c3_dwell_amended initKin (some 1000) (some 1) (by decide)

/-! ## C10: axis-mapping fallback -/

/-- C10 confirmed: when the configured source letter for an x/y/z role is
absent from the params, `getAxisValue` returns whatever the canonical letter
lookup gives — the canonical value when present, `None` when both are
absent. -/
theorem c10_axis_fallback (st : GPState) (args : Args) (axis k : String)
    (hk : axisKey st axis = some k) (hmiss : args.lookup k = none) :
    getAxisValue st args axis = args.lookup axis := by
  simp [getAxisValue, hk, hmiss]

/-- C10 witness: x role remapped to source letter `"a"`; params carry only
canonical `x`, whose value is returned. -/
theorem c10_axis_fallback_witness :
    getAxisValue remapGP [("x", (7 : ℚ))] "x" = some 7 := by
  have h := c10_axis_fallback remapGP [("x", (7 : ℚ))] "x" "a" (by decide) (by decide)
  rw [h]
  decide

/-! ## Character-level lemmas about ASCII lower-casing -/

theorem lowerLookup_cases :
    ∀ (tbl : List (Char × Char)) (c : Char),
      lowerLookup tbl c = c ∨ ∃ p ∈ tbl, p.1 = c ∧ lowerLookup tbl c = p.2 := by
  intro tbl
  induction tbl with
  | nil => intro c; exact Or.inl rfl
  | cons p rest ih =>
    intro c
    obtain ⟨u, l⟩ := p
    by_cases h : c = u
    · right
      exact ⟨(u, l), List.mem_cons_self _ _, h.symm, by simp [lowerLookup, h]⟩
    · rcases ih c with h1 | ⟨q, hq, hq1, hq2⟩
      · left
        simp [lowerLookup, h, h1]
      · right
        exact ⟨q, List.mem_cons_of_mem _ hq, hq1, by simp [lowerLookup, h, hq2]⟩

theorem lowerChar_eq_colon (d : Char) : lowerChar d = ':' ↔ d = ':' := by
  rcases lowerLookup_cases upperLower d with h | ⟨p, hp, hp1, hp2⟩
  · rw [lowerChar, h]
  · rw [lowerChar, hp2]
    subst hp1
    fin_cases hp <;> simp

theorem lowerChar_eq_comma (d : Char) : lowerChar d = ',' ↔ d = ',' := by
  rcases lowerLookup_cases upperLower d with h | ⟨p, hp, hp1, hp2⟩
  · rw [lowerChar, h]
  · rw [lowerChar, hp2]
    subst hp1
    fin_cases hp <;> simp

theorem lowerChar_ne_C (d : Char) : lowerChar d ≠ 'C' := by
  rcases lowerLookup_cases upperLower d with h | ⟨p, hp, hp1, hp2⟩
  · rw [lowerChar, h]
    intro hd
    subst hd
    rw [show lowerLookup upperLower 'C' = 'c' from rfl] at h
    exact absurd h (by decide)
  · rw [lowerChar, hp2]
    fin_cases hp <;> decide

theorem isSp_lowerChar (d : Char) : isSp (lowerChar d) = isSp d := by
  rcases lowerLookup_cases upperLower d with h | ⟨p, hp, hp1, hp2⟩
  · rw [lowerChar, h]
  · rw [lowerChar, hp2]
    subst hp1
    fin_cases hp <;> decide

/-! ## C7: continuity invariant -/

theorem chainedFrom_append (c : Curve) :
    ∀ (l : List Curve) (p : Pt3),
      chainedFrom p (l ++ [c]) ↔ chainedFrom p l ∧ c.startPt = lastEndD p l := by
  intro l
  induction l with
  | nil => intro p; simp [chainedFrom, lastEndD, and_comm]
  | cons d rest ih => intro p; simp [chainedFrom, lastEndD, ih, and_assoc]

theorem lastEndD_append (c : Curve) :
    ∀ (l : List Curve) (p : Pt3), lastEndD p (l ++ [c]) = c.endPt := by
  intro l
  induction l with
  | nil => intro p; rfl
  | cons d rest ih => intro p; exact ih d.endPt

theorem G0_inv (st : GPState) (args : Args) (h : gpInv st) : gpInv (G0 st args) := by
  obtain ⟨h1, h2⟩ := h
  have hg : (G0 st args).geometry =
      st.geometry ++ [Curve.line st.position (getAllAxesValues st args)
        ((args.lookup "f").getD st.feedrate)] := rfl
  constructor
  · rw [hg, chainedFrom_append]
    exact ⟨h1, h2.symm⟩
  · rw [show (G0 st args).position = getAllAxesValues st args from rfl, hg, lastEndD_append]
    rfl

theorem G2_inv (st : GPState) (args : Args) (dir : String) (h : gpInv st) :
    gpInv (G2 st args dir) := by
  obtain ⟨h1, h2⟩ := h
  have hg : (G2 st args dir).geometry =
      st.geometry ++ [Curve.arc st.position (getAllAxesValues st args)
        ((args.lookup "f").getD st.feedrate) dir
        (if isRelativePosition st then
          ((args.lookup "i").getD 0 + st.position.x, (args.lookup "j").getD 0 + st.position.y)
         else ((args.lookup "i").getD 0, (args.lookup "j").getD 0))] := by
    by_cases hrel : isRelativePosition st
    · simp only [G2, hrel, if_true]
    · simp only [G2, hrel, if_false]
  constructor
  · rw [hg, chainedFrom_append]
    exact ⟨h1, h2.symm⟩
  · rw [show (G2 st args dir).position = getAllAxesValues st args from rfl, hg, lastEndD_append]
    rfl

theorem dispatchCmd_inv (st : GPState) (c : GcodeCommand) (h : gpInv st) :
    gpInv (dispatchCmd st c) := by
  unfold dispatchCmd
  repeat' split
  · exact G0_inv _ _ h
  · exact G0_inv _ _ h
  · exact G2_inv _ _ _ h
  · exact G2_inv _ _ _ h
  · exact h
  · exact h
  · exact h

theorem processOne_inv (st : GPState) (c : GcodeCommand) (h : gpInv st) :
    gpInv (processOne st c) := by
  have h2 := dispatchCmd_inv { st with lineCount := st.lineCount + 1 } c h
  show gpInv (if c.tag = [] then dispatchCmd { st with lineCount := st.lineCount + 1 } c
    else processComment (dispatchCmd { st with lineCount := st.lineCount + 1 } c) c.tag)
  split
  · exact h2
  · obtain ⟨fr, hfr⟩ :=
      processComment_shape c.tag (dispatchCmd { st with lineCount := st.lineCount + 1 } c)
    rw [hfr]
    exact h2

theorem process_inv (cmds : List GcodeCommand) :
    ∀ st : GPState, gpInv st → gpInv (process st cmds) := by
  induction cmds with
  | nil => intro st h; exact h
  | cons c rest ih => intro st h; exact ih (processOne st c) (processOne_inv st c h)

/-- C7 confirmed: from any freshly constructed interpreter, the geometry
emitted for any command sequence chains — the first segment starts at the
initial position (0,0,0) and each later segment starts exactly where its
predecessor ended.  (`GeometryParser` never emits Dwell segments — it has no
`G4` handler — so the claim's Dwell exception is vacuously respected.) -/
theorem c7_continuity (xa ya za : String) (ps : PositionSystem) (fr : ℚ)
    (cmds : List GcodeCommand) :
    chainedFrom Pt3.origin (process (initGP xa ya za ps fr) cmds).geometry :=
  (process_inv cmds (initGP xa ya za ps fr) ⟨trivial, rfl⟩).1

/-! ## C4: the "CTS" comment-tag feedrate update -/

theorem mem_dictInsert {α β : Type} [DecidableEq α] (d : List (α × β)) (k : α) (v : β)
    (kv : α × β) (h : kv ∈ dictInsert d k v) : kv.1 = k ∨ kv ∈ d := by
  induction d with
  | nil =>
    simp only [dictInsert, List.mem_singleton] at h
    rw [h]
    exact Or.inl rfl
  | cons p rest ih =>
    obtain ⟨k0, v0⟩ := p
    unfold dictInsert at h
    by_cases hk : k0 = k
    · rw [if_pos hk] at h
      rcases List.mem_cons.mp h with h1 | h1
      · exact Or.inl (by rw [h1])
      · exact Or.inr (List.mem_cons_of_mem _ h1)
    · rw [if_neg hk] at h
      rcases List.mem_cons.mp h with h1 | h1
      · exact Or.inr (by rw [h1]; exact List.mem_cons_self _ _)
      · rcases ih h1 with h2 | h2
        · exact Or.inl h2
        · exact Or.inr (List.mem_cons_of_mem _ h2)

theorem mem_foldl_dictInsert {α β : Type} [DecidableEq α] :
    ∀ (pairs : List (α × β)) (init : List (α × β)) (kv : α × β),
      kv ∈ pairs.foldl (fun r p => dictInsert r p.1 p.2) init →
      kv ∈ init ∨ ∃ p ∈ pairs, kv.1 = p.1 := by
  intro pairs
  induction pairs with
  | nil => intro init kv h; exact Or.inl h
  | cons p rest ih =>
    intro init kv h
    rcases ih (dictInsert init p.1 p.2) kv h with h1 | ⟨q, hq, hq1⟩
    · rcases mem_dictInsert init p.1 p.2 kv h1 with h2 | h2
      · exact Or.inr ⟨p, List.mem_cons_self _ _, h2⟩
      · exact Or.inl h2
    · exact Or.inr ⟨q, List.mem_cons_of_mem _ hq, hq1⟩

theorem mem_mergePairs {α β : Type} [DecidableEq α] (pairs : List (α × β)) (kv : α × β)
    (h : kv ∈ mergePairs pairs) : ∃ p ∈ pairs, kv.1 = p.1 := by
  rcases mem_foldl_dictInsert pairs [] kv h with h1 | h1
  · exact absurd h1 (List.not_mem_nil kv)
  · exact h1

theorem trimCL_subset (l : List Char) : ∀ x ∈ trimCL l, x ∈ l := by
  intro x hx
  unfold trimCL at hx
  rw [List.mem_reverse] at hx
  have hx2 := (List.dropWhile_sublist isSp).subset hx
  rw [List.mem_reverse] at hx2
  exact (List.dropWhile_sublist isSp).subset hx2

/-- Unfolding equation for `splitOnChar` on a cons, given the recursive
result. -/
theorem splitOnChar_cons (sep c : Char) (rest h : List Char) (t : List (List Char))
    (hr : splitOnChar sep rest = h :: t) :
    splitOnChar sep (c :: rest) =
      if c = sep then [] :: h :: t else (c :: h) :: t := by
  unfold splitOnChar
  rw [hr]

theorem splitOnChar_ne_nil (sep : Char) : ∀ l : List Char, splitOnChar sep l ≠ [] := by
  intro l
  induction l with
  | nil => simp [splitOnChar]
  | cons c rest ih =>
    cases hr : splitOnChar sep rest with
    | nil => exact absurd hr ih
    | cons h t =>
      rw [splitOnChar_cons sep c rest h t hr]
      by_cases hc : c = sep <;> simp [hc]

theorem splitOnChar_subset (sep : Char) :
    ∀ (l : List Char) (part : List Char), part ∈ splitOnChar sep l → ∀ x ∈ part, x ∈ l := by
  intro l
  induction l with
  | nil =>
    intro part hp x hx
    simp only [splitOnChar, List.mem_singleton] at hp
    subst hp
    simp at hx
  | cons c rest ih =>
    intro part hp x hx
    cases hr : splitOnChar sep rest with
    | nil => exact absurd hr (splitOnChar_ne_nil sep rest)
    | cons hd tl =>
      rw [splitOnChar_cons sep c rest hd tl hr] at hp
      by_cases hc : c = sep
      · rw [if_pos hc] at hp
        rcases List.mem_cons.mp hp with h1 | h1
        · subst h1; simp at hx
        · exact List.mem_cons_of_mem _ (ih part (by rw [hr]; exact h1) x hx)
      · rw [if_neg hc] at hp
        rcases List.mem_cons.mp hp with h1 | h1
        · subst h1
          rcases List.mem_cons.mp hx with h2 | h2
          · rw [h2]; exact List.mem_cons_self _ _
          · exact List.mem_cons_of_mem _
              (ih hd (by rw [hr]; exact List.mem_cons_self _ _) x h2)
        · exact List.mem_cons_of_mem _
            (ih part (by rw [hr]; exact List.mem_cons_of_mem _ h1) x hx)

/-- Keys produced by a comment chunk never contain an uppercase `C`: they are
built from the lower-cased chunk. -/
theorem tagChunk_key_no_C (c : List Char) (k : List Char) (v : TagValue)
    (h : tagChunk c = some (k, v)) : 'C' ∉ k := by
  unfold tagChunk at h
  by_cases hc : (c.map lowerChar).contains ':'
  · rw [if_pos hc] at h
    cases hs : splitOnChar ':' (c.map lowerChar) with
    | nil => exact absurd hs (splitOnChar_ne_nil ':' (c.map lowerChar))
    | cons a tl =>
      cases tl with
      | nil =>
        rw [hs] at h
        exact absurd h (by simp)
      | cons b tl2 =>
        rw [hs] at h
        have hk : k = trimCL a := by
          have := (Option.some.injEq _ _).mp h
          exact (congrArg Prod.fst this).symm
        intro hCk
        rw [hk] at hCk
        have hCa : 'C' ∈ a := trimCL_subset a 'C' hCk
        have hCl : 'C' ∈ c.map lowerChar :=
          splitOnChar_subset ':' (c.map lowerChar) a (by rw [hs]; exact List.mem_cons_self _ _)
            'C' hCa
        obtain ⟨d, _, hd⟩ := List.mem_map.mp hCl
        exact lowerChar_ne_C d hd
  · rw [if_neg hc] at h
    exact absurd h (by simp)

/-- Every key the tokenizer's comment parsing can produce differs from the
uppercase `"CTS"` the handler compares against. -/
theorem parse_comment_tag_no_CTS (comment : List Char) (kv : List Char × TagValue)
    (h : kv ∈ parse_comment_tag comment) : kv.1 ≠ "CTS".toList := by
  unfold parse_comment_tag at h
  by_cases hlen : 0 < comment.length
  · rw [if_pos hlen] at h
    obtain ⟨p, hp, hk⟩ := mem_mergePairs _ _ h
    obtain ⟨chunk, _, hsome⟩ := List.mem_filterMap.mp hp
    obtain ⟨pk, pv⟩ := p
    have hnoC := tagChunk_key_no_C chunk pk pv hsome
    intro hcts
    have hpk : pk = "CTS".toList := hk.symm.trans hcts
    apply hnoC
    rw [hpk]
    decide
  · rw [if_neg hlen] at h
    exact absurd h (List.not_mem_nil kv)

theorem processComment_no_CTS :
    ∀ (tag : List (List Char × TagValue)) (st : GPState),
      (∀ kv ∈ tag, kv.1 ≠ "CTS".toList) → processComment st tag = st := by
  intro tag
  induction tag with
  | nil => intro st h; rfl
  | cons kv rest ih =>
    intro st h
    have h1 : processComment st (kv :: rest) =
        processComment
          (if kv.1 = "CTS".toList then
            match kv.2 with
            | TagValue.num q => { st with feedrate := q }
            | TagValue.str _ => st
          else st) rest := rfl
    rw [h1, if_neg (h kv (List.mem_cons_self _ _))]
    exact ih st (fun p hp => h p (List.mem_cons_of_mem _ hp))

/-- C4 (code bug): the comment `cts:500` parses to the numeric tag
`\x7b"cts": 500\x7d`, yet processing the tokenized command leaves the persisted
feedrate at its initial 100 — and in general a comment parsed by the
tokenizer can never change interpreter state, because `parse_comment_tag`
lower-cases every key while `processComment` matches the uppercase `"CTS"`. -/
theorem c4_cts_never_fires :
    (process initDefault [ctsCmd]).feedrate = 100 ∧
      parse_comment_tag ("cts:500".toList) = [("cts".toList, TagValue.num 500)] ∧
      ∀ (st : GPState) (comment : List Char),
        processComment st (parse_comment_tag comment) = st := by
  refine ⟨by decide, by decide, ?_⟩
  intro st comment
  exact processComment_no_CTS _ st (fun kv hkv => parse_comment_tag_no_CTS comment kv hkv)

/-! ## C5: comment-tag parsing reference definition -/

theorem beq_colon_lowerChar (d : Char) : (lowerChar d == ':') = (d == ':') := by
  by_cases hd : d = ':'
  · subst hd; rfl
  · have h1 : lowerChar d ≠ ':' := fun h => hd ((lowerChar_eq_colon d).mp h)
    rw [beq_eq_false_iff_ne.mpr h1, beq_eq_false_iff_ne.mpr hd]

theorem colon_mem_map_lower (c : List Char) : (':' ∈ c.map lowerChar) ↔ (':' ∈ c) := by
  constructor
  · intro h
    obtain ⟨d, hd, hld⟩ := List.mem_map.mp h
    rw [← (lowerChar_eq_colon d).mp hld]
    exact hd
  · intro h
    have : lowerChar ':' = ':' := rfl
    exact List.mem_map.mpr ⟨':', h, this⟩

theorem contains_colon_map_lower (c : List Char) :
    (c.map lowerChar).contains ':' = c.contains ':' := by
  rw [Bool.eq_iff_iff]
  rw [show ((c.map lowerChar).contains ':' = true) ↔ (':' ∈ c.map lowerChar) from List.elem_iff]
  rw [show (c.contains ':' = true) ↔ (':' ∈ c) from List.elem_iff]
  exact colon_mem_map_lower c

theorem notColon_comp_lowerChar :
    ((fun d => !(d == ':')) ∘ lowerChar) = (fun d : Char => !(d == ':')) :=
  funext fun d => by simp only [Function.comp_apply, beq_colon_lowerChar d]

theorem splitOnChar_of_not_mem (sep : Char) :
    ∀ l : List Char, sep ∉ l → splitOnChar sep l = [l] := by
  intro l
  induction l with
  | nil => intro h; rfl
  | cons c rest ih =>
    intro h
    have hc : c ≠ sep := fun he => h (he ▸ List.mem_cons_self _ _)
    have hrest : sep ∉ rest := fun he => h (List.mem_cons_of_mem _ he)
    rw [splitOnChar_cons sep c rest rest [] (ih hrest), if_neg hc]

theorem splitOnChar_eq_cons (sep : Char) :
    ∀ l : List Char, sep ∈ l →
      splitOnChar sep l =
        (l.takeWhile (fun d => !(d == sep))) ::
          splitOnChar sep ((l.dropWhile (fun d => !(d == sep))).drop 1) := by
  intro l
  induction l with
  | nil => intro h; simp at h
  | cons c rest ih =>
    intro hmem
    cases hr : splitOnChar sep rest with
    | nil => exact absurd hr (splitOnChar_ne_nil sep rest)
    | cons hd tl =>
      rw [splitOnChar_cons sep c rest hd tl hr]
      by_cases hc : c = sep
      · rw [if_pos hc]
        have h1 : (c :: rest).takeWhile (fun d => !(d == sep)) = [] := by
          rw [List.takeWhile_cons]
          simp [hc]
        have h2 : (c :: rest).dropWhile (fun d => !(d == sep)) = c :: rest := by
          rw [List.dropWhile_cons]
          simp [hc]
        rw [h1, h2]
        simp [hr]
      · rw [if_neg hc]
        have hmem2 : sep ∈ rest := by
          rcases List.mem_cons.mp hmem with h | h
          · exact absurd h.symm hc
          · exact h
        have hrec := ih hmem2
        rw [hr] at hrec
        have h1 : (c :: rest).takeWhile (fun d => !(d == sep)) =
            c :: rest.takeWhile (fun d => !(d == sep)) := by
          rw [List.takeWhile_cons]
          simp [hc]
        have h2 : (c :: rest).dropWhile (fun d => !(d == sep)) =
            rest.dropWhile (fun d => !(d == sep)) := by
          rw [List.dropWhile_cons]
          simp [hc]
        rw [h1, h2]
        rw [List.cons.injEq] at hrec
        rw [← hrec.1, ← hrec.2]

theorem splitOnChar_head (sep : Char) (l : List Char) :
    ∃ t, splitOnChar sep l = (l.takeWhile (fun d => !(d == sep))) :: t := by
  by_cases hmem : sep ∈ l
  · exact ⟨_, splitOnChar_eq_cons sep l hmem⟩
  · refine ⟨[], ?_⟩
    rw [splitOnChar_of_not_mem sep l hmem]
    have he : l.takeWhile (fun d => !(d == sep)) = l :=
      List.takeWhile_eq_self_iff.mpr (fun a ha => by
        have hne : a ≠ sep := fun hh => hmem (hh ▸ ha)
        simp [beq_eq_false_iff_ne.mpr hne])
    rw [he]

theorem tagChunk_eq_amended (c : List Char) : tagChunk c = tagChunkAmended c := by
  simp only [tagChunk, tagChunkAmended]
  rw [contains_colon_map_lower c]
  by_cases hc : c.contains ':' = true
  · rw [if_pos hc, if_pos hc]
    have hmemC : ':' ∈ c := List.elem_iff.mp hc
    have hmemL : ':' ∈ c.map lowerChar := (colon_mem_map_lower c).mpr hmemC
    rw [splitOnChar_eq_cons ':' (c.map lowerChar) hmemL]
    obtain ⟨t2, ht2⟩ :=
      splitOnChar_head ':' (((c.map lowerChar).dropWhile (fun d => !(d == ':'))).drop 1)
    rw [ht2]
    have hK : (c.map lowerChar).takeWhile (fun d => !(d == ':')) =
        (beforeChar ':' c).map lowerChar := by
      rw [List.takeWhile_map, notColon_comp_lowerChar]
      rfl
    have hM : ((c.map lowerChar).dropWhile (fun d => !(d == ':'))).drop 1 =
        (afterChar ':' c).map lowerChar := by
      rw [List.dropWhile_map, notColon_comp_lowerChar, ← List.map_drop]
      rfl
    have hV : (((c.map lowerChar).dropWhile (fun d => !(d == ':'))).drop 1).takeWhile
          (fun d => !(d == ':')) = (beforeChar ':' (afterChar ':' c)).map lowerChar := by
      rw [hM, List.takeWhile_map, notColon_comp_lowerChar]
      rfl
    rw [hK, hV]
  · rw [if_neg hc, if_neg hc]

/-- C5 counterexample: for the comment `A:B:C` the code produces the
lower-cased between-colons value `"b"`, while the claim's reference
definition keeps the entire original-case remainder `"B:C"`. -/
theorem c5_tag_parse_counterexample :
    parse_comment_tag ("A:B:C".toList) ≠ parseCommentTagClaim ("A:B:C".toList) := by
  decide

/-- C5 (amended): comment-tag parsing equals the reference definition with
two corrections — the value is the piece between the first and second colon
(rest dropped), and it is lower-cased along with the whole chunk before the
numeric parse. -/
theorem c5_tag_parse_amended (comment : List Char) :
    parse_comment_tag comment = parseCommentTagAmended comment := by
  unfold parse_comment_tag parseCommentTagAmended
  by_cases h : 0 < comment.length
  · rw [if_pos h, if_pos h]
    exact congrArg mergePairs (List.filterMap_congr (fun c _ => tagChunk_eq_amended c))
  · rw [if_neg h, if_neg h]

/-! ## C6: kinematics failure and per-segment time -/

theorem getD_map_range (n : ℕ) (f : ℕ → ℚ) (i : ℕ) (hi : i < n) :
    (((List.range n).map f).getD i 0) = f i := by
  rw [List.getD_eq_getElem?_getD, List.getElem?_map, List.getElem?_range hi]
  rfl

/-- C6 counterexample: positions (0,0,0) → (1,0,0) with feedrate 0 — distance
1 exceeds eps while the feedrate does not — yet `create_linespace` returns
successfully (the zero-feedrate pair keeps a zero recomputed time and is
skipped); no `InvalidKinematics` failure occurs in the resampler. -/
theorem c6_resampler_counterexample :
    npEps < euclidNorm (psub ⟨1, 0, 0⟩ ⟨0, 0, 0⟩) ∧ (0 : ℚ) ≤ npEps ∧
      create_linespace euclidNorm demoLines [0, 0] [] none (1 / 10) npEps =
        Except.ok ([⟨1, 0, 0⟩], [Pt3.origin], [0]) := by
  refine ⟨by norm_num [euclidNorm, ratSqrt, psub, npEps, Nat.sqrt],
    by norm_num [npEps], ?_⟩
  have h1 : effectiveTimes euclidNorm [⟨0, 0, 0⟩, ⟨1, 0, 0⟩] [0, 0] [] npEps = [0, 0] := by
    norm_num [effectiveTimes, recomputeTimes, euclidNorm, ratSqrt, psub, npEps,
      List.range_succ, Nat.sqrt]
  have h2 : segBlock euclidNorm (1 / 10) npEps ⟨0, 0, 0⟩ ⟨1, 0, 0⟩ 0 0 =
      Except.ok ([], [], []) := by
    unfold segBlock
    rw [if_pos (by norm_num [npEps])]
  rw [show ((1 : ℚ) / 10) = (10 : ℚ)⁻¹ from one_div 10] at h2
  simp only [create_linespace, demoLines]
  rw [h1]
  norm_num [tstepOf]
  rw [show (List.range 1) = [0] from rfl]
  simp [List.mapM.loop, h2, Except.map]

/-- C6 (amended): the `InvalidKinematics` `ValueError` lives in the PARSE
stage — `GcodeSegment.__init__`'s linear-move branch fails exactly when the
move's distance reaches `EPS` while the feedrate does not exceed it, and
otherwise records traversal time `distance / feedrate`; the resampler itself
never fails for kinematic reasons: a recomputed per-segment time is
`distance / feedrate` when the feedrate exceeds `eps` and is left `0` (the
segment is skipped) otherwise. -/
theorem c6_kinematics_amended (norm : Pt3 → ℚ) (st : KinState) (new_pos : Pt3) (speed : ℚ)
    (lines : List Pt3) (speeds : List ℚ) (eps : ℚ) (i : ℕ) (hi : i < speeds.length) :
    ((linearMoveStep norm st new_pos speed = Except.error ()) ↔
      (EPS10 ≤ norm (psub new_pos (st.positions.getLastD Pt3.origin)) ∧ speed ≤ EPS10)) ∧
    (EPS10 ≤ norm (psub new_pos (st.positions.getLastD Pt3.origin)) → EPS10 < speed →
      linearMoveStep norm st new_pos speed = Except.ok
        { positions := st.positions ++ [new_pos]
          velocities := st.velocities ++ [speed]
          times := st.times ++
            [norm (psub new_pos (st.positions.getLastD Pt3.origin)) / speed] }) ∧
    ((recomputeTimes norm lines speeds eps).getD i 0 =
      if i + 1 < lines.length ∧ eps < speeds.getD i 0 then
        norm (psub (lines.getD (i + 1) Pt3.origin) (lines.getD i Pt3.origin)) / speeds.getD i 0
      else 0) := by
  refine ⟨?_, ?_, ?_⟩
  · unfold linearMoveStep
    by_cases h1 : norm (psub new_pos (st.positions.getLastD Pt3.origin)) < EPS10
    · rw [if_pos h1]
      constructor
      · intro h; exact absurd h (by simp)
      · intro h; exact absurd h1 (not_lt.mpr h.1)
    · rw [if_neg h1]
      by_cases h2 : EPS10 < speed
      · rw [if_pos h2]
        constructor
        · intro h; exact absurd h (by simp)
        · intro h; exact absurd h2 (not_lt.mpr h.2)
      · rw [if_neg h2]
        constructor
        · intro _; exact ⟨not_lt.mp h1, not_lt.mp h2⟩
        · intro _; rfl
  · intro hd hs
    unfold linearMoveStep
    rw [if_neg (not_lt.mpr hd), if_pos hs]
  · unfold recomputeTimes
    rw [getD_map_range speeds.length _ i hi]
    by_cases ha : i + 1 < lines.length
    · rw [if_pos ha]
      by_cases hb : eps < speeds.getD i 0
      · rw [if_pos hb, if_pos ⟨ha, hb⟩]
      · rw [if_neg hb, if_neg (fun hc => hb hc.2)]
    · rw [if_neg ha, if_neg (fun hc => ha hc.1)]

/-- C6 witness: the amended theorem instantiated at a unit move with feedrate
2 from the fresh kinematics state and the zero-feedrate demo pair. -/
theorem c6_kinematics_witness :
    ((linearMoveStep euclidNorm initKin ⟨1, 0, 0⟩ 2 = Except.error ()) ↔
      (EPS10 ≤ euclidNorm (psub ⟨1, 0, 0⟩ (initKin.positions.getLastD Pt3.origin)) ∧
        (2 : ℚ) ≤ EPS10)) ∧
    (EPS10 ≤ euclidNorm (psub ⟨1, 0, 0⟩ (initKin.positions.getLastD Pt3.origin)) →
      EPS10 < (2 : ℚ) →
      linearMoveStep euclidNorm initKin ⟨1, 0, 0⟩ 2 = Except.ok
        { positions := initKin.positions ++ [⟨1, 0, 0⟩]
          velocities := initKin.velocities ++ [(2 : ℚ)]
          times := initKin.times ++
            [euclidNorm (psub ⟨1, 0, 0⟩ (initKin.positions.getLastD Pt3.origin)) / 2] }) ∧
    ((recomputeTimes euclidNorm demoLines [0, 0] npEps).getD 0 0 =
      if 0 + 1 < demoLines.length ∧ npEps < ([0, 0] : List ℚ).getD 0 0 then
        euclidNorm (psub (demoLines.getD (0 + 1) Pt3.origin) (demoLines.getD 0 Pt3.origin)) /
          ([0, 0] : List ℚ).getD 0 0
      else 0) :=
  c6_kinematics_amended euclidNorm initKin ⟨1, 0, 0⟩ 2 demoLines [0, 0] npEps 0 (by decide)

/-! ## C8: the resampled trajectory ends at rest -/

theorem tDeltas_nonneg (eps t t_step : ℚ) (hstep : 0 < t_step) :
    ∀ dt ∈ tDeltas eps t t_step, 0 ≤ dt := by
  intro dt hdt
  have hdec : 0 ≤ numberStepsDecimal t t_step := by
    unfold numberStepsDecimal
    have := Int.floor_le (t / t_step)
    linarith
  unfold tDeltas at hdt
  split at hdt
  · rcases List.mem_append.mp hdt with h1 | h1
    · have h2 := List.dropLast_subset _ h1
      rw [List.eq_of_mem_replicate h2]
      exact le_of_lt hstep
    · rw [List.mem_singleton.mp h1]
      exact mul_nonneg hdec (le_of_lt hstep)
  · rw [List.eq_of_mem_replicate hdt]
    exact le_of_lt hstep

theorem segBlock_ok_dts (norm : Pt3 → ℚ) (t_step eps : ℚ) (p0 p1 : Pt3) (sp t : ℚ)
    (a : List Pt3 × List Pt3 × List ℚ) (hstep : 0 < t_step)
    (h : segBlock norm t_step eps p0 p1 sp t = Except.ok a) :
    ∀ dt ∈ a.2.2, 0 ≤ dt := by
  unfold segBlock at h
  split at h
  · obtain rfl : (([], [], []) : List Pt3 × List Pt3 × List ℚ) = a := by injection h
    simp
  · split at h
    · simp at h
    · split at h
      · simp at h
      · obtain rfl :
          ((stepRanges eps t t_step).map
            (fun r => padd p0 (smul (r * t_step) (smul sp (unitOf norm p0 p1)))),
           List.replicate (numberStepsCeil t t_step) (smul sp (unitOf norm p0 p1)),
           tDeltas eps t t_step) = a := by injection h
        exact tDeltas_nonneg eps t t_step hstep

theorem mapM_ok_mem {ε α β : Type} (f : α → Except ε β) :
    ∀ (l : List α) (bs : List β), l.mapM f = Except.ok bs →
      ∀ b ∈ bs, ∃ a ∈ l, f a = Except.ok b := by
  intro l
  induction l with
  | nil =>
    intro bs h b hb
    simp only [List.mapM_nil] at h
    obtain rfl : ([] : List β) = bs := by injection h
    simp at hb
  | cons a rest ih =>
    intro bs h b hb
    rw [List.mapM_cons] at h
    cases hfa : f a with
    | error e => rw [hfa] at h; simp [Bind.bind, Except.bind] at h
    | ok x =>
      rw [hfa] at h
      cases hrest : rest.mapM f with
      | error e => rw [hrest] at h; simp [Bind.bind, Except.bind] at h
      | ok xs =>
        rw [hrest] at h
        simp only [Bind.bind, Except.bind] at h
        obtain rfl : x :: xs = bs := by injection h
        rcases List.mem_cons.mp hb with h1 | h1
        · exact ⟨a, List.mem_cons_self _ _, h1 ▸ hfa⟩
        · obtain ⟨a2, ha2, hfa2⟩ := ih xs hrest b h1
          exact ⟨a2, List.mem_cons_of_mem _ ha2, hfa2⟩

/-- C8 confirmed: whenever `create_linespace` succeeds, every per-sample time
delta is nonnegative (elapsed time is monotonically non-decreasing), and the
trajectory terminates with time delta 0, velocity 0, and the last raw
position — trajectories end at rest. -/
theorem c8_resampler_ends_at_rest (norm : Pt3 → ℚ) (lines : List Pt3)
    (speeds times0 : List ℚ) (tr : Option ℚ) (tstep eps : ℚ) (P V : List Pt3) (T : List ℚ)
    (h : create_linespace norm lines speeds times0 tr tstep eps = Except.ok (P, V, T)) :
    (∀ dt ∈ T, 0 ≤ dt) ∧ T.getLast? = some 0 ∧ V.getLast? = some Pt3.origin ∧
      P.getLast? = lines.getLast? := by
  unfold create_linespace at h
  split at h
  · simp at h
  · split at h
    · simp at h
    · rename_i t_step heqt
      split at h
      · simp at h
      · rename_i hts
        split at h
        · simp at h
        · rename_i hne
          split at h
          · simp at h
          · rename_i bs hbs
            have hstep : 0 < t_step := lt_of_not_le hts
            have hlinesne : lines ≠ [] := by
              intro hl
              rw [hl] at hne
              exact hne rfl
            obtain ⟨hP, hV, hT⟩ :
                ((bs.map (fun b => b.1)).flatten ++ [lines.getLastD Pt3.origin] = P) ∧
                ((bs.map (fun b => b.2.1)).flatten ++ [Pt3.origin] = V) ∧
                ((bs.map (fun b => b.2.2)).flatten ++ [(0 : ℚ)] = T) := by
              have h2 : ((bs.map (fun b => b.1)).flatten ++ [lines.getLastD Pt3.origin],
                  (bs.map (fun b => b.2.1)).flatten ++ [Pt3.origin],
                  (bs.map (fun b => b.2.2)).flatten ++ [(0 : ℚ)]) = ((P, V, T) :
                    List Pt3 × List Pt3 × List ℚ) := by injection h
              exact ⟨congrArg (fun x => x.1) h2, congrArg (fun x => x.2.1) h2,
                congrArg (fun x => x.2.2) h2⟩
            refine ⟨?_, ?_, ?_, ?_⟩
            · intro dt hdt
              rw [← hT] at hdt
              rcases List.mem_append.mp hdt with h1 | h1
              · obtain ⟨l2, hl2, hdtl⟩ := List.mem_flatten.mp h1
                obtain ⟨b, hb, hbl⟩ := List.mem_map.mp hl2
                obtain ⟨i, _, hok⟩ := mapM_ok_mem _ _ bs hbs b hb
                exact segBlock_ok_dts norm t_step eps _ _ _ _ b hstep hok dt (hbl ▸ hdtl)
              · rw [List.mem_singleton.mp h1]
            · rw [← hT, List.getLast?_concat]
            · rw [← hV, List.getLast?_concat]
            · rw [← hP, List.getLast?_concat]
              obtain ⟨a, ha⟩ : ∃ a, lines.getLast? = some a := by
                cases hq : lines.getLast? with
                | some a => exact ⟨a, rfl⟩
                | none => exact absurd (List.getLast?_eq_none_iff.mp hq) hlinesne
              rw [ha, List.getLastD_eq_getLast?, ha]
              rfl

theorem segBlock_demo_eval : segBlock euclidNorm 1 npEps ⟨0, 0, 0⟩ ⟨1, 0, 0⟩ 1 1 =
    Except.ok ([⟨0, 0, 0⟩], [⟨1, 0, 0⟩], [1]) := by
  norm_num [segBlock, numberSteps, numberStepsCeil, numberStepsDecimal, stepRanges, tDeltas,
    unitOf, euclidNorm, ratSqrt, psub, padd, smul, npEps, List.range_succ, Nat.sqrt]

theorem create_linespace_demo_eval :
    create_linespace euclidNorm demoLines [1, 1] [1, 0] none 1 npEps =
      Except.ok ([⟨0, 0, 0⟩, ⟨1, 0, 0⟩], [⟨1, 0, 0⟩, Pt3.origin], [1, 0]) := by
  have heff : effectiveTimes euclidNorm [⟨0, 0, 0⟩, ⟨1, 0, 0⟩] [1, 1] [1, 0] npEps = [1, 0] := by
    norm_num [effectiveTimes]
  simp only [create_linespace, demoLines]
  rw [heff]
  norm_num [tstepOf]
  rw [show (List.range 1) = [0] from rfl]
  simp [List.mapM.loop, segBlock_demo_eval, Except.map, Pt3.origin]

/-- C8 witness: the theorem applied to the unit-move demo trajectory, whose
resampling is evaluated explicitly. -/
theorem c8_resampler_witness :
    (∀ dt ∈ ([1, 0] : List ℚ), 0 ≤ dt) ∧ ([1, 0] : List ℚ).getLast? = some 0 ∧
      ([⟨1, 0, 0⟩, Pt3.origin] : List Pt3).getLast? = some Pt3.origin ∧
      ([⟨0, 0, 0⟩, ⟨1, 0, 0⟩] : List Pt3).getLast? = demoLines.getLast? :=
  c8_resampler_ends_at_rest euclidNorm demoLines [1, 1] [1, 0] none 1 npEps
    [⟨0, 0, 0⟩, ⟨1, 0, 0⟩] [⟨1, 0, 0⟩, Pt3.origin] [1, 0] create_linespace_demo_eval

/-! ## C9: arc rasterization round trip -/

theorem circle_point_x (cx cy px py : ℝ) :
    cx + Real.sqrt ((px - cx) ^ 2 + (py - cy) ^ 2) *
      Real.cos (atan2 (py - cy) (px - cx)) = px := by
  by_cases hz : (⟨px - cx, py - cy⟩ : ℂ) = 0
  · have hre : px - cx = 0 := by
      have := congrArg Complex.re hz
      simpa using this
    have him : py - cy = 0 := by
      have := congrArg Complex.im hz
      simpa using this
    rw [hre, him]
    norm_num
    linarith
  · have habs : Real.sqrt ((px - cx) ^ 2 + (py - cy) ^ 2) =
        Complex.abs ⟨px - cx, py - cy⟩ := by
      rw [Complex.abs_apply, Complex.normSq_mk]
      ring_nf
    rw [habs, atan2, Complex.cos_arg hz]
    have hne : Complex.abs ⟨px - cx, py - cy⟩ ≠ 0 :=
      (AbsoluteValue.ne_zero_iff Complex.abs).mpr hz
    rw [mul_div_cancel₀ _ hne]
    show cx + (px - cx) = px
    ring

theorem circle_point_y (cx cy px py : ℝ) :
    cy + Real.sqrt ((px - cx) ^ 2 + (py - cy) ^ 2) *
      Real.sin (atan2 (py - cy) (px - cx)) = py := by
  by_cases hz : (⟨px - cx, py - cy⟩ : ℂ) = 0
  · have hre : px - cx = 0 := by
      have := congrArg Complex.re hz
      simpa using this
    have him : py - cy = 0 := by
      have := congrArg Complex.im hz
      simpa using this
    rw [hre, him]
    norm_num
    linarith
  · have habs : Real.sqrt ((px - cx) ^ 2 + (py - cy) ^ 2) =
        Complex.abs ⟨px - cx, py - cy⟩ := by
      rw [Complex.abs_apply, Complex.normSq_mk]
      ring_nf
    rw [habs, atan2, Complex.sin_arg]
    have hne : Complex.abs ⟨px - cx, py - cy⟩ ≠ 0 :=
      (AbsoluteValue.ne_zero_iff Complex.abs).mpr hz
    rw [mul_div_cancel₀ _ hne]
    show cy + (py - cy) = py
    ring

theorem cos_start_add_rawSweep (a : ArcR) :
    Real.cos (startAngle a + rawSweep a) = Real.cos (endAngle a) ∧
      Real.sin (startAngle a + rawSweep a) = Real.sin (endAngle a) := by
  unfold rawSweep
  split
  · rw [show startAngle a + (endAngle a - startAngle a - 2 * Real.pi) =
      endAngle a - 2 * Real.pi from by ring]
    exact ⟨Real.cos_sub_two_pi _, Real.sin_sub_two_pi _⟩
  · split
    · rw [show startAngle a + (endAngle a - startAngle a + 2 * Real.pi) =
        endAngle a + 2 * Real.pi from by ring]
      exact ⟨Real.cos_add_two_pi _, Real.sin_add_two_pi _⟩
    · rw [show startAngle a + (endAngle a - startAngle a) = endAngle a from by ring]
      exact ⟨rfl, rfl⟩

/-- C9 (amended): `sample(n)` has `n + 1` points; its first point always
equals the segment's own start; and its last point equals the segment's own
end PROVIDED the end lies on the circle about the center through the start
and the folded sweep is not snapped to a full circle by the `1e-3` rule.  (In
general the last point is the radial projection of the end onto that circle,
so an off-circle end breaks the round trip — see the counterexample.) -/
theorem c9_arc_sample_amended (a : ArcR) (n : ℕ) (hn : 1 ≤ n) :
    (compute_points a n).length = n + 1 ∧
    (compute_points a n).head? = some a.start ∧
    (((a.stop.x - a.center.1) ^ 2 + (a.stop.y - a.center.2) ^ 2 =
        (a.start.x - a.center.1) ^ 2 + (a.start.y - a.center.2) ^ 2) →
      ¬ |rawSweep a| < 1 / 1000 →
      (compute_points a n).getLast? = some a.stop) := by
  obtain ⟨⟨sx, sy, sz⟩, ⟨ex, ey, ez⟩, dir, cx, cy⟩ := a
  refine ⟨by simp [compute_points], ?_, ?_⟩
  · unfold compute_points
    rw [List.range_succ_eq_map]
    simp only [List.map_cons, List.head?_cons, Option.some.injEq, Nat.cast_zero]
    rw [zero_div, zero_mul, add_zero]
    rw [RPt.mk.injEq]
    refine ⟨?_, ?_, by ring⟩
    · exact circle_point_x cx cy sx sy
    · exact circle_point_y cx cy sx sy
  · intro hC hsnap
    unfold compute_points
    rw [List.range_succ, List.map_append]
    simp only [List.map_cons, List.map_nil, List.getLast?_concat, Option.some.injEq]
    have ht : ((n : ℝ)) / ((n : ℝ)) = 1 :=
      div_self (Nat.cast_ne_zero.mpr (by omega))
    rw [ht, one_mul]
    have hsw : sweep ⟨⟨sx, sy, sz⟩, ⟨ex, ey, ez⟩, dir, (cx, cy)⟩ =
        rawSweep ⟨⟨sx, sy, sz⟩, ⟨ex, ey, ez⟩, dir, (cx, cy)⟩ := by
      unfold sweep
      rw [if_neg hsnap]
    rw [hsw]
    obtain ⟨hcos, hsin⟩ := cos_start_add_rawSweep ⟨⟨sx, sy, sz⟩, ⟨ex, ey, ez⟩, dir, (cx, cy)⟩
    rw [hcos, hsin]
    have hr : radiusOf ⟨⟨sx, sy, sz⟩, ⟨ex, ey, ez⟩, dir, (cx, cy)⟩ =
        Real.sqrt ((ex - cx) ^ 2 + (ey - cy) ^ 2) := by
      unfold radiusOf
      exact congrArg Real.sqrt hC.symm
    rw [hr]
    rw [RPt.mk.injEq]
    refine ⟨?_, ?_, by ring⟩
    · exact circle_point_x cx cy ex ey
    · exact circle_point_y cx cy ex ey

theorem startAngle_cwDemo : startAngle cwDemo = 0 := by
  show Complex.arg ⟨(1 : ℝ) - 0, (0 : ℝ) - 0⟩ = 0
  rw [show ((⟨(1 : ℝ) - 0, (0 : ℝ) - 0⟩ : ℂ)) = 1 from by simp [Complex.ext_iff]]
  exact Complex.arg_one

theorem endAngle_cwDemo : endAngle cwDemo = Real.pi := by
  show Complex.arg ⟨(-1 : ℝ) - 0, (0 : ℝ) - 0⟩ = Real.pi
  rw [show ((⟨(-1 : ℝ) - 0, (0 : ℝ) - 0⟩ : ℂ)) = -1 from by simp [Complex.ext_iff]]
  exact Complex.arg_neg_one

theorem rawSweep_cwDemo : rawSweep cwDemo = -Real.pi := by
  unfold rawSweep
  rw [startAngle_cwDemo, endAngle_cwDemo]
  rw [if_pos ⟨rfl, by simpa using Real.pi_pos⟩]
  ring

/-- C9 witness: the amended theorem applied to the half-circle demo arc with
`n = 2`; both hypotheses hold, so both endpoints round-trip. -/
theorem c9_arc_sample_witness :
    (compute_points cwDemo 2).length = 2 + 1 ∧
    (compute_points cwDemo 2).head? = some cwDemo.start ∧
    (compute_points cwDemo 2).getLast? = some cwDemo.stop := by
  have h := c9_arc_sample_amended cwDemo 2 (by norm_num)
  refine ⟨h.1, h.2.1, h.2.2 ?_ ?_⟩
  · show ((-1 : ℝ) - 0) ^ 2 + ((0 : ℝ) - 0) ^ 2 = ((1 : ℝ) - 0) ^ 2 + ((0 : ℝ) - 0) ^ 2
    norm_num
  · rw [rawSweep_cwDemo, abs_neg, abs_of_pos Real.pi_pos]
    intro hlt
    have h3 := Real.pi_gt_three
    norm_num at hlt
    linarith

theorem startAngle_caDemo : startAngle caDemo = 0 := by
  show Complex.arg ⟨(1 : ℝ) - 0, (0 : ℝ) - 0⟩ = 0
  rw [show ((⟨(1 : ℝ) - 0, (0 : ℝ) - 0⟩ : ℂ)) = 1 from by simp [Complex.ext_iff]]
  exact Complex.arg_one

theorem endAngle_caDemo : endAngle caDemo = 0 := by
  show Complex.arg ⟨(3 : ℝ) - 0, (0 : ℝ) - 0⟩ = 0
  rw [show ((⟨(3 : ℝ) - 0, (0 : ℝ) - 0⟩ : ℂ)) = ((3 : ℝ) : ℂ) from by simp [Complex.ext_iff]]
  exact Complex.arg_ofReal_of_nonneg (by norm_num)

theorem rawSweep_caDemo : rawSweep caDemo = 0 := by
  unfold rawSweep
  rw [startAngle_caDemo, endAngle_caDemo]
  rw [if_neg (fun h => absurd h.2 (by norm_num)), if_neg (fun h => h.1 rfl)]
  ring

theorem sweep_caDemo : sweep caDemo = -(2 * Real.pi) := by
  unfold sweep
  rw [rawSweep_caDemo]
  rw [if_pos (by norm_num)]
  rw [if_neg (show ¬¬caDemo.dir = "cw" from not_not_intro rfl)]

theorem radiusOf_caDemo : radiusOf caDemo = 1 := by
  show Real.sqrt (((1 : ℝ) - 0) ^ 2 + ((0 : ℝ) - 0) ^ 2) = 1
  rw [show ((1 : ℝ) - 0) ^ 2 + ((0 : ℝ) - 0) ^ 2 = 1 from by norm_num, Real.sqrt_one]

/-- C9 counterexample: for the arc from (1,0,0) to the off-circle end
(3,0,0) about center (0,0), the last sampled point is (1,0,0), not the
segment's own end. -/
theorem c9_arc_sample_counterexample :
    (compute_points caDemo 1).getLast? = some ⟨1, 0, 0⟩ ∧
      (compute_points caDemo 1).getLast? ≠ some caDemo.stop := by
  have hlast : (compute_points caDemo 1).getLast? = some ⟨1, 0, 0⟩ := by
    unfold compute_points
    rw [List.range_succ, List.map_append]
    simp only [List.map_cons, List.map_nil, List.getLast?_concat, Option.some.injEq]
    rw [startAngle_caDemo, sweep_caDemo, radiusOf_caDemo]
    rw [RPt.mk.injEq]
    refine ⟨?_, ?_, by norm_num [caDemo]⟩
    · show (0 : ℝ) + 1 * Real.cos (0 + (1 : ℕ) / ((1 : ℕ) : ℝ) * -(2 * Real.pi)) = 1
      norm_num [Real.cos_neg, Real.cos_two_pi]
    · show (0 : ℝ) + 1 * Real.sin (0 + (1 : ℕ) / ((1 : ℕ) : ℝ) * -(2 * Real.pi)) = 0
      norm_num [Real.sin_neg, Real.sin_two_pi]
  refine ⟨hlast, ?_⟩
  rw [hlast]
  intro h
  have h2 := Option.some.inj h
  rw [show caDemo.stop = (⟨3, 0, 0⟩ : RPt) from rfl, RPt.mk.injEq] at h2
  norm_num at h2

end MGR
